import Mathlib

/-!
Verification of the moving-least-squares coefficients kernel
(`ArborX_InterpDetailsMovingLeastSquaresCoefficients.hpp`,
namespace `ArborX::Interpolation::Details`).

The working scalar type (`CoefficientsType`, float or double in the C++)
is modelled by the real numbers; the machine epsilon
`Kokkos::Experimental::epsilon_v<CoefficientsType>` becomes an explicit
positive parameter `eps`.  The compactly supported radial basis function
(`CRBF::evaluate`, a template parameter chosen from a closed set) becomes
an explicit function parameter `kernel`.  Points of dimension `d` are
functions `Fin d → ℝ`, matching `ExperimentalHyperGeometry::Point`.
-/

namespace MLS

/-- Points of fixed dimension `d` over the working scalar type. -/
abbrev Point (d : ℕ) : Type := Fin d → ℝ

/-- The zero-initialized point `point_t{}` used as the origin in the C++. -/
def origin (d : ℕ) : Point d := fun _ => 0

/-- Euclidean distance between two points, as computed by
`ArborX::Details::distance` on hyper-points. -/
noncomputable def distance {d : ℕ} (p q : Point d) : ℝ :=
  Real.sqrt (∑ k, (p k - q k) ^ 2)

/-- Index set of the polynomial basis: exponent tuples of total degree at
most `D` in `d` variables.  Its cardinality is `poly_size`. -/
def PolyIdx (d D : ℕ) : Type := {α : Fin d → Fin (D + 1) // (∑ k, (α k : ℕ)) ≤ D}

instance (d D : ℕ) : DecidableEq (PolyIdx d D) := Subtype.instDecidableEq

instance (d D : ℕ) : Fintype (PolyIdx d D) := Subtype.fintype _

/-- The exponent tuple of the constant monomial; the basis-ordering contract
places it at index 0 of the basis. -/
def constIdx (d D : ℕ) : PolyIdx d D := ⟨fun _ => 0, by simp⟩

instance (d D : ℕ) : Inhabited (PolyIdx d D) := ⟨constIdx d D⟩

/-- The monomial with exponent tuple `α`, evaluated at `x`. -/
def mono {d D : ℕ} (α : PolyIdx d D) (x : Point d) : ℝ :=
  ∏ k, x k ^ (α.1 k : ℕ)

/-- Modelled from the spec: `evaluatePolynomialBasis<degree>` (from
`ArborX_InterpDetailsPolynomialBasis.hpp`, not part of the provided source)
returns the ordered vector of all monomials of total degree at most `D`
evaluated at a point, the constant term being the entry at index 0. -/
def evaluatePolynomialBasis {d : ℕ} (D : ℕ) (x : Point d) : PolyIdx d D → ℝ :=
  fun α => mono α x

/-- Stage `source_ref_target_fill`: for every target `i`, neighbor `j` and
dimension `k`, `t[k] = src[k] - tgt[k]`. -/
def relTable {d : ℕ} (nt nn : ℕ) (src : Fin nt → Fin nn → Point d)
    (tgt : Fin nt → Point d) : Fin nt → Fin nn → Point d :=
  fun i j k => src i j k - tgt i k

/-- The serial reduction inside stage `radii_computation`: starting from
`radius = epsilon`, take `radius = max(radius, norm_j)` over the neighbors
in order. -/
noncomputable def radiusLoop {d : ℕ} (nn : ℕ) (rel : Fin nn → Point d)
    (eps : ℝ) : ℝ :=
  (List.finRange nn).foldl (fun r j => max r (distance (rel j) (origin d))) eps

/-- Stage `radii_computation`: `radii(i) = 1.1 * radius` with `radius` the
serial max-reduction started at machine epsilon. -/
noncomputable def radiiTable {d : ℕ} (nt nn : ℕ)
    (rel : Fin nt → Fin nn → Point d) (eps : ℝ) : Fin nt → ℝ :=
  fun i => 1.1 * radiusLoop nn (rel i) eps

/-- Stage `phi_computation`: `phi(i,j) = CRBF::evaluate(norm / radii(i))`. -/
noncomputable def phiTable {d : ℕ} (nt nn : ℕ) (kernel : ℝ → ℝ)
    (rel : Fin nt → Fin nn → Point d) (radii : Fin nt → ℝ) :
    Fin nt → Fin nn → ℝ :=
  fun i j => kernel (distance (rel i j) (origin d) / radii i)

/-- Stage `vandermonde_computation`: `p(i,j,k) = basis[k]` where `basis` is
the polynomial basis of `source_ref_target(i,j)`. -/
def vandTable {d : ℕ} (D nt nn : ℕ) (rel : Fin nt → Fin nn → Point d) :
    Fin nt → Fin nn → PolyIdx d D → ℝ :=
  fun i j => evaluatePolynomialBasis D (rel i j)

/-- The serial reduction inside stage `moment_computation`:
`tmp = 0; for l: tmp += p(i,l,j) * p(i,l,k) * phi(i,l)`. -/
def momentLoop {d : ℕ} (D nn : ℕ) (p : Fin nn → PolyIdx d D → ℝ)
    (phi : Fin nn → ℝ) (α β : PolyIdx d D) : ℝ :=
  (List.finRange nn).foldl (fun t l => t + p l α * p l β * phi l) 0

/-- Stage `moment_computation`: the moment matrix `a(i,·,·)`. -/
def momentTable {d : ℕ} (D nt nn : ℕ)
    (p : Fin nt → Fin nn → PolyIdx d D → ℝ) (phi : Fin nt → Fin nn → ℝ) :
    Fin nt → Matrix (PolyIdx d D) (PolyIdx d D) ℝ :=
  fun i => Matrix.of (momentLoop D nn (p i) (phi i))

/-- Modelled from the spec: `symmetricPseudoInverseSVD` (from
`ArborX_InterpDetailsSymmetricPseudoInverseSVD.hpp`, not part of the
provided source) replaces each symmetric moment matrix in place by its
Moore-Penrose pseudo-inverse.  On invertible matrices the Moore-Penrose
pseudo-inverse coincides with the ordinary inverse, which is how the
claims below use it; the rank-deficient branch is modelled by Mathlib's
total matrix inverse. -/
noncomputable def symmetricPseudoInverseSVD {d D nt : ℕ}
    (a : Fin nt → Matrix (PolyIdx d D) (PolyIdx d D) ℝ) :
    Fin nt → Matrix (PolyIdx d D) (PolyIdx d D) ℝ :=
  fun i => (a i)⁻¹

/-- Stage `coefficients_computation`:
`coeffs(i,j) = Σ_k a(i,0,k) * p(i,j,k) * phi(i,j)`, where `a` holds the
pseudo-inverted moment matrix and index 0 of the basis is the constant
term. -/
noncomputable def coeffsTable {d : ℕ} (D nt nn : ℕ)
    (ainv : Fin nt → Matrix (PolyIdx d D) (PolyIdx d D) ℝ)
    (p : Fin nt → Fin nn → PolyIdx d D → ℝ) (phi : Fin nt → Fin nn → ℝ) :
    Fin nt → Fin nn → ℝ :=
  fun i j => ∑ k, ainv i (constIdx d D) k * p i j k * phi i j

/-- The views held by the call, one field per `Kokkos::View` allocated or
received by `movingLeastSquaresCoefficients` (`source` and `target` are the
inputs; the others are the freshly allocated intermediates and the output).
The moment field is the `a` view, overwritten in place by the
pseudo-inverse stage. -/
structure State (d D nt nn : ℕ) where
  source : Fin nt → Fin nn → Point d
  target : Fin nt → Point d
  rel : Fin nt → Fin nn → Point d
  radii : Fin nt → ℝ
  phi : Fin nt → Fin nn → ℝ
  vand : Fin nt → Fin nn → PolyIdx d D → ℝ
  moment : Fin nt → Matrix (PolyIdx d D) (PolyIdx d D) ℝ
  coeffs : Fin nt → Fin nn → ℝ

/-- The state at entry: the input views, with the intermediate views not
yet allocated (all zero). -/
def initState {d : ℕ} (D nt nn : ℕ) (src : Fin nt → Fin nn → Point d)
    (tgt : Fin nt → Point d) : State d D nt nn where
  source := src
  target := tgt
  rel := fun _ _ _ => 0
  radii := fun _ => 0
  phi := fun _ _ => 0
  vand := fun _ _ _ => 0
  moment := fun _ => 0
  coeffs := fun _ _ => 0

/-- The `source_ref_target_fill` dispatch: writes only the `rel` view. -/
def stageRel {d D nt nn : ℕ} (s : State d D nt nn) : State d D nt nn :=
  { s with rel := relTable nt nn s.source s.target }

/-- The `radii_computation` dispatch: writes only the `radii` view. -/
noncomputable def stageRadii {d D nt nn : ℕ} (eps : ℝ) (s : State d D nt nn) :
    State d D nt nn :=
  { s with radii := radiiTable nt nn s.rel eps }

/-- The `phi_computation` dispatch: writes only the `phi` view. -/
noncomputable def stagePhi {d D nt nn : ℕ} (kernel : ℝ → ℝ)
    (s : State d D nt nn) : State d D nt nn :=
  { s with phi := phiTable nt nn kernel s.rel s.radii }

/-- The `vandermonde_computation` dispatch: writes only the `p` view. -/
def stageVand {d D nt nn : ℕ} (s : State d D nt nn) : State d D nt nn :=
  { s with vand := vandTable D nt nn s.rel }

/-- The `moment_computation` dispatch: writes only the `a` view. -/
def stageMoment {d D nt nn : ℕ} (s : State d D nt nn) : State d D nt nn :=
  { s with moment := momentTable D nt nn s.vand s.phi }

/-- The `symmetricPseudoInverseSVD` call: overwrites the `a` view in place
with the pseudo-inverse. -/
noncomputable def stageInvert {d D nt nn : ℕ} (s : State d D nt nn) :
    State d D nt nn :=
  { s with moment := symmetricPseudoInverseSVD s.moment }

/-- The `coefficients_computation` dispatch: writes only the output view. -/
noncomputable def stageCoeffs {d D nt nn : ℕ} (s : State d D nt nn) :
    State d D nt nn :=
  { s with coeffs := coeffsTable D nt nn s.moment s.vand s.phi }

/-- The body of `movingLeastSquaresCoefficients` after the precondition
checks: the six stages in their dependency order. -/
noncomputable def runPipeline {d : ℕ} (D nt nn : ℕ) (kernel : ℝ → ℝ)
    (eps : ℝ) (src : Fin nt → Fin nn → Point d) (tgt : Fin nt → Point d) :
    State d D nt nn :=
  stageCoeffs (stageInvert (stageMoment (stageVand
    (stagePhi kernel (stageRadii eps (stageRel (initState D nt nn src tgt)))))))

/-- The raw call arguments as seen before any check: the source view with
its two runtime extents, and the target access-trait sequence with its
size.  The dimension `d` is compile-time (template) data and is therefore
shared at the type level. -/
structure RawInput (d : ℕ) where
  srcRows : ℕ
  numNeighbors : ℕ
  numTargets : ℕ
  src : ℕ → ℕ → Point d
  tgt : ℕ → Point d

/-- The full call `movingLeastSquaresCoefficients`: the runtime shape
precondition `num_targets == source_points.extent_int(0)` (the
`KOKKOS_ASSERT` placed before any allocation or parallel dispatch) guards
the pipeline; a violating call aborts, producing nothing. -/
noncomputable def movingLeastSquaresCoefficients {d : ℕ} (D : ℕ)
    (kernel : ℝ → ℝ) (eps : ℝ) (inp : RawInput d) :
    Option (Fin inp.numTargets → Fin inp.numNeighbors → ℝ) :=
  if inp.numTargets = inp.srcRows then
    some (runPipeline D inp.numTargets inp.numNeighbors kernel eps
      (fun i j => inp.src i j) (fun i => inp.tgt i)).coeffs
  else
    none

/-- The end-to-end coefficients: the contents of the returned view. -/
noncomputable def mlsCoeffs {d : ℕ} (D nt nn : ℕ) (kernel : ℝ → ℝ) (eps : ℝ)
    (src : Fin nt → Fin nn → Point d) (tgt : Fin nt → Point d) :
    Fin nt → Fin nn → ℝ :=
  (runPipeline D nt nn kernel eps src tgt).coeffs

/-- Modelled from the spec: a representative member of the closed set of
compactly supported radial basis functions the `CRBF` template parameter
ranges over — value 1 at argument 0, nonnegative, nonincreasing to 0 at
argument 1, identically 0 beyond 1. -/
noncomputable def wendland0 (r : ℝ) : ℝ := if 1 ≤ r then 0 else (1 - r) ^ 2

/-- A polynomial of total degree at most `D` in `d` variables, written with
coefficients `c` in the monomial basis centered at the point `t`.  Every
real polynomial of total degree at most `D` on `d` variables is of this
form for exactly one `c` (Taylor expansion around `t`), so quantifying over
`c` quantifies over all such polynomials. -/
def shiftedPolynomial {d D : ℕ} (c : PolyIdx d D → ℝ) (t : Point d) :
    Point d → ℝ :=
  fun x => ∑ α, c α * mono α (fun k => x k - t k)

/-- A sample input: one target at the origin of the line with one neighbor
coinciding with it. -/
def srcCoincide : Fin 1 → Fin 1 → Point 1 := fun _ _ _ => 0

/-- A sample input: one target at the origin of the line. -/
def tgtOrigin : Fin 1 → Point 1 := fun _ _ => 0

/-- A sample input: one target with one neighbor at coordinate 3. -/
def srcThree : Fin 1 → Fin 1 → Point 1 := fun _ _ _ => 3

/-- A sample raw call whose neighborhood table has two rows but whose
target sequence has one point. -/
def mismatchedInput : RawInput 1 where
  srcRows := 2
  numNeighbors := 1
  numTargets := 1
  src := fun _ _ _ => 0
  tgt := fun _ _ => 0

/-! Helper lemmas about the serial reductions and the basis. -/

lemma foldl_max_init_le {α : Type} [LinearOrder α] (l : List α) (e : α) :
    e ≤ l.foldl max e := by
  induction l generalizing e with
  | nil => exact le_refl e
  | cons x xs ih => exact le_trans (le_max_left e x) (ih (max e x))

lemma foldl_max_le {α : Type} [LinearOrder α] {l : List α} {e c : α}
    (he : e ≤ c) (h : ∀ x ∈ l, x ≤ c) : l.foldl max e ≤ c := by
  induction l generalizing e with
  | nil => exact he
  | cons x xs ih =>
    exact ih (max_le he (h x (List.mem_cons_self x xs)))
      (fun y hy => h y (List.mem_cons_of_mem x hy))

lemma le_foldl_max_of_mem {α : Type} [LinearOrder α] {l : List α} {x : α}
    (hx : x ∈ l) (e : α) : x ≤ l.foldl max e := by
  induction l generalizing e with
  | nil => cases hx
  | cons y ys ih =>
    rcases List.mem_cons.mp hx with h | h
    · subst h
      exact le_trans (le_max_right e x) (foldl_max_init_le ys (max e x))
    · exact ih h (max e y)

lemma radiusLoop_foldl_map {d : ℕ} (nn : ℕ) (rel : Fin nn → Point d)
    (eps : ℝ) :
    radiusLoop nn rel eps =
      ((List.finRange nn).map fun j => distance (rel j) (origin d)).foldl
        max eps := by
  rw [radiusLoop, List.foldl_map]

lemma eps_le_radiusLoop {d : ℕ} (nn : ℕ) (rel : Fin nn → Point d) (eps : ℝ) :
    eps ≤ radiusLoop nn rel eps := by
  rw [radiusLoop_foldl_map]
  exact foldl_max_init_le _ eps

lemma distance_le_radiusLoop {d : ℕ} (nn : ℕ) (rel : Fin nn → Point d)
    (eps : ℝ) (j : Fin nn) :
    distance (rel j) (origin d) ≤ radiusLoop nn rel eps := by
  rw [radiusLoop_foldl_map]
  exact le_foldl_max_of_mem
    (List.mem_map_of_mem (fun j => distance (rel j) (origin d))
      (List.mem_finRange j)) eps

lemma radiusLoop_le {d : ℕ} {nn : ℕ} {rel : Fin nn → Point d} {eps c : ℝ}
    (he : eps ≤ c) (h : ∀ j, distance (rel j) (origin d) ≤ c) :
    radiusLoop nn rel eps ≤ c := by
  rw [radiusLoop_foldl_map]
  refine foldl_max_le he ?_
  intro x hx
  rcases List.mem_map.mp hx with ⟨j, _, rfl⟩
  exact h j

lemma foldl_add_eq_sum {ι : Type} (l : List ι) (f : ι → ℝ) (c : ℝ) :
    l.foldl (fun t x => t + f x) c = c + (l.map f).sum := by
  induction l generalizing c with
  | nil => simp
  | cons x xs ih => rw [List.foldl_cons, ih, List.map_cons, List.sum_cons]; ring

lemma momentLoop_eq_sum {d : ℕ} (D nn : ℕ) (p : Fin nn → PolyIdx d D → ℝ)
    (phi : Fin nn → ℝ) (α β : PolyIdx d D) :
    momentLoop D nn p phi α β = ∑ l, p l α * p l β * phi l := by
  rw [momentLoop, foldl_add_eq_sum, zero_add, ← List.ofFn_eq_map,
    List.sum_ofFn]

lemma mono_constIdx {d D : ℕ} (x : Point d) : mono (constIdx d D) x = 1 := by
  simp [mono, constIdx]

lemma mono_zeroPoint {d D : ℕ} (α : PolyIdx d D) :
    mono α (fun _ => (0 : ℝ)) = if α = constIdx d D then 1 else 0 := by
  by_cases h : α = constIdx d D
  · rw [h, if_pos rfl, mono_constIdx]
  · rw [if_neg h]
    have hk : ∃ k, (α.1 k : ℕ) ≠ 0 := by
      by_contra hc
      push_neg at hc
      exact h (Subtype.ext (funext fun k => Fin.ext (by simpa using hc k)))
    obtain ⟨k, hk⟩ := hk
    exact Finset.prod_eq_zero (Finset.mem_univ k) (zero_pow hk)

instance uniquePolyIdxDegZero (d : ℕ) : Unique (PolyIdx d 0) where
  default := constIdx d 0
  uniq a := Subtype.ext (funext fun k => by
    have h0 : (a.1 k : ℕ) = 0 := Nat.le_zero.mp (le_trans
      (Finset.single_le_sum (f := fun k => ((a.1 k : ℕ)))
        (fun _ _ => Nat.zero_le _) (Finset.mem_univ k)) a.2)
    exact Fin.ext (by simp [h0]))

lemma distance_self_zero {d : ℕ} (p : Point d) : distance p p = 0 := by
  simp [distance]

lemma runPipeline_rel_eq {d : ℕ} (D nt nn : ℕ) (kernel : ℝ → ℝ) (eps : ℝ)
    (src : Fin nt → Fin nn → Point d) (tgt : Fin nt → Point d) :
    (runPipeline D nt nn kernel eps src tgt).rel = relTable nt nn src tgt :=
  rfl

lemma runPipeline_radii_eq {d : ℕ} (D nt nn : ℕ) (kernel : ℝ → ℝ) (eps : ℝ)
    (src : Fin nt → Fin nn → Point d) (tgt : Fin nt → Point d) :
    (runPipeline D nt nn kernel eps src tgt).radii =
      radiiTable nt nn (relTable nt nn src tgt) eps :=
  rfl

lemma runPipeline_phi_eq {d : ℕ} (D nt nn : ℕ) (kernel : ℝ → ℝ) (eps : ℝ)
    (src : Fin nt → Fin nn → Point d) (tgt : Fin nt → Point d) :
    (runPipeline D nt nn kernel eps src tgt).phi =
      phiTable nt nn kernel (relTable nt nn src tgt)
        (radiiTable nt nn (relTable nt nn src tgt) eps) :=
  rfl

lemma mlsCoeffs_eq {d : ℕ} (D nt nn : ℕ) (kernel : ℝ → ℝ) (eps : ℝ)
    (src : Fin nt → Fin nn → Point d) (tgt : Fin nt → Point d) :
    mlsCoeffs D nt nn kernel eps src tgt =
      coeffsTable D nt nn
        (symmetricPseudoInverseSVD (momentTable D nt nn
          (vandTable D nt nn (relTable nt nn src tgt))
          (phiTable nt nn kernel (relTable nt nn src tgt)
            (radiiTable nt nn (relTable nt nn src tgt) eps))))
        (vandTable D nt nn (relTable nt nn src tgt))
        (phiTable nt nn kernel (relTable nt nn src tgt)
          (radiiTable nt nn (relTable nt nn src tgt) eps)) :=
  rfl

lemma shiftedPolynomial_at_center {d D : ℕ} (c : PolyIdx d D → ℝ)
    (t : Point d) : shiftedPolynomial c t t = c (constIdx d D) := by
  unfold shiftedPolynomial
  have hterm : ∀ α : PolyIdx d D,
      c α * mono α (fun k => t k - t k) =
        if α = constIdx d D then c α else 0 := by
    intro α
    have h0 : (fun k => t k - t k) = (fun _ : Fin d => (0 : ℝ)) :=
      funext fun k => sub_self (t k)
    rw [h0, mono_zeroPoint]
    by_cases h : α = constIdx d D <;> simp [h]
  rw [Finset.sum_congr rfl (fun α _ => hterm α)]
  exact Fintype.sum_ite_eq' (constIdx d D) c

lemma shiftedPolynomial_const_one {d : ℕ} (t x : Point d) :
    shiftedPolynomial (fun _ : PolyIdx d 0 => (1 : ℝ)) t x = 1 := by
  unfold shiftedPolynomial
  rw [Fintype.sum_unique]
  show (1 : ℝ) * mono (constIdx d 0) _ = 1
  rw [one_mul, mono_constIdx]

/-! Claim theorems. -/

/-- C10: the source-points view and the target-points sequence are left
unchanged by the call: every stage of the pipeline writes only to its own
freshly allocated table (or, for the pseudo-inverse, overwrites the moment
table in place), and the input views are read-only throughout. -/
theorem inputs_left_unchanged {d : ℕ} (D nt nn : ℕ) (kernel : ℝ → ℝ)
    (eps : ℝ) (src : Fin nt → Fin nn → Point d) (tgt : Fin nt → Point d) :
    (runPipeline D nt nn kernel eps src tgt).source = src ∧
    (runPipeline D nt nn kernel eps src tgt).target = tgt :=
  ⟨rfl, rfl⟩

/-- C8: when the neighborhood table's outer extent differs from the
target-sequence length, the call fails before any stage runs and produces
no output at all (the dimension-equality and memory-accessibility
preconditions are compile-time `static_assert`s, enforced at the type
level in this embedding). -/
theorem shape_mismatch_aborts {d : ℕ} (D : ℕ) (kernel : ℝ → ℝ) (eps : ℝ)
    (inp : RawInput d) (h : inp.numTargets ≠ inp.srcRows) :
    movingLeastSquaresCoefficients D kernel eps inp = none := by
  rw [movingLeastSquaresCoefficients, if_neg h]

theorem shape_mismatch_aborts_witness :
    (mismatchedInput.numTargets ≠ mismatchedInput.srcRows) ∧
    movingLeastSquaresCoefficients 0 (fun r => r) 1 mismatchedInput = none :=
  ⟨by decide,
    shape_mismatch_aborts 0 (fun r => r) 1 mismatchedInput (by decide)⟩

/-- C4: every entry of the assembled moment matrix equals the sum over
neighbors of the product of the two Vandermonde entries and the weight;
the serial reduction of the source loop computes exactly that sum. -/
theorem moment_entry_eq_weighted_sum {d : ℕ} (D nt nn : ℕ)
    (p : Fin nt → Fin nn → PolyIdx d D → ℝ) (phi : Fin nt → Fin nn → ℝ)
    (i : Fin nt) (α β : PolyIdx d D) :
    momentTable D nt nn p phi i α β = ∑ l, p i l α * p i l β * phi i l :=
  momentLoop_eq_sum D nn (p i) (phi i) α β

/-- C5: the assembled moment matrix is exactly symmetric: the two
transposed entries are serial reductions over the neighbors in the same
order whose summands differ only by commuting the two Vandermonde factors,
so the partial sums agree step by step. -/
theorem moment_matrix_symmetric {d : ℕ} (D nt nn : ℕ)
    (p : Fin nt → Fin nn → PolyIdx d D → ℝ) (phi : Fin nt → Fin nn → ℝ)
    (i : Fin nt) (α β : PolyIdx d D) :
    momentTable D nt nn p phi i α β = momentTable D nt nn p phi i β α := by
  show momentLoop D nn (p i) (phi i) α β = momentLoop D nn (p i) (phi i) β α
  rw [momentLoop, momentLoop]
  have hstep :
      (fun (t : ℝ) (l : Fin nn) => t + p i l α * p i l β * phi i l) =
      (fun (t : ℝ) (l : Fin nn) => t + p i l β * p i l α * phi i l) := by
    funext t l
    ring
  rw [hstep]

/-- C7: for every target and neighbor, the relative coordinates are the
elementwise difference of source and target, and the weight produced by
the pipeline is the kernel evaluated at the distance from the relative
point to the origin divided by that target's radius; the stage is purely
elementwise and total. -/
theorem weight_eq_kernel_normalized_distance {d : ℕ} (D nt nn : ℕ)
    (kernel : ℝ → ℝ) (eps : ℝ) (src : Fin nt → Fin nn → Point d)
    (tgt : Fin nt → Point d) (i : Fin nt) (j : Fin nn) :
    (runPipeline D nt nn kernel eps src tgt).rel i j =
      (fun k => src i j k - tgt i k) ∧
    (runPipeline D nt nn kernel eps src tgt).phi i j =
      kernel (distance ((runPipeline D nt nn kernel eps src tgt).rel i j)
        (origin d) / (runPipeline D nt nn kernel eps src tgt).radii i) :=
  ⟨rfl, rfl⟩

/-- C2: for every target, the radius equals 1.1 times the maximum over its
neighbors of the distance from the relative point to the origin, floored
at machine epsilon, and is strictly positive, so the division by the
radius in the weight stage is well-defined. -/
theorem radius_formula_and_positive {d : ℕ} (nt nn : ℕ)
    (src : Fin nt → Fin nn → Point d) (tgt : Fin nt → Point d) (eps : ℝ)
    (i : Fin nt) (hnn : 0 < nn) (heps : 0 < eps) :
    radiiTable nt nn (relTable nt nn src tgt) eps i =
      1.1 * max eps ((Finset.univ : Finset (Fin nn)).sup'
        ⟨⟨0, hnn⟩, Finset.mem_univ _⟩
        (fun j => distance (relTable nt nn src tgt i j) (origin d))) ∧
    0 < radiiTable nt nn (relTable nt nn src tgt) eps i := by
  constructor
  · show 1.1 * radiusLoop nn (relTable nt nn src tgt i) eps = _
    congr 1
    apply le_antisymm
    · exact radiusLoop_le (le_max_left _ _)
        (fun j => le_trans
          (Finset.le_sup'
            (fun j => distance (relTable nt nn src tgt i j) (origin d))
            (Finset.mem_univ j))
          (le_max_right _ _))
    · exact max_le (eps_le_radiusLoop nn _ eps)
        (Finset.sup'_le _ _ fun j _ => distance_le_radiusLoop nn _ eps j)
  · have h1 : eps ≤ radiusLoop nn (relTable nt nn src tgt i) eps :=
      eps_le_radiusLoop nn _ eps
    show 0 < 1.1 * radiusLoop nn (relTable nt nn src tgt i) eps
    nlinarith

theorem radius_formula_and_positive_witness :
    ((0 : ℕ) < 1 ∧ (0 : ℝ) < 1) ∧
    (radiiTable 1 1 (relTable 1 1 srcThree tgtOrigin) 1 0 =
        1.1 * max 1 ((Finset.univ : Finset (Fin 1)).sup'
          ⟨⟨0, Nat.one_pos⟩, Finset.mem_univ _⟩
          (fun j => distance (relTable 1 1 srcThree tgtOrigin 0 j)
            (origin 1))) ∧
      0 < radiiTable 1 1 (relTable 1 1 srcThree tgtOrigin) 1 0) :=
  ⟨⟨Nat.one_pos, by norm_num⟩,
    radius_formula_and_positive 1 1 srcThree tgtOrigin 1 0 Nat.one_pos
      (by norm_num)⟩

/-- C6: every neighbor's normalized distance to its target is strictly
below 1: the 1.1 inflation keeps even the farthest neighbor strictly
inside the kernel's unit support. -/
theorem normalized_distance_lt_one {d : ℕ} (nt nn : ℕ)
    (src : Fin nt → Fin nn → Point d) (tgt : Fin nt → Point d) (eps : ℝ)
    (i : Fin nt) (j : Fin nn) (heps : 0 < eps) :
    distance (relTable nt nn src tgt i j) (origin d) /
      radiiTable nt nn (relTable nt nn src tgt) eps i < 1 := by
  have h1 : eps ≤ radiusLoop nn (relTable nt nn src tgt i) eps :=
    eps_le_radiusLoop nn _ eps
  have h2 : distance (relTable nt nn src tgt i j) (origin d) ≤
      radiusLoop nn (relTable nt nn src tgt i) eps :=
    distance_le_radiusLoop nn _ eps j
  have h0 : 0 < radiusLoop nn (relTable nt nn src tgt i) eps :=
    lt_of_lt_of_le heps h1
  show _ / (1.1 * radiusLoop nn (relTable nt nn src tgt i) eps) < 1
  rw [div_lt_one (by nlinarith)]
  nlinarith

theorem normalized_distance_lt_one_witness :
    (0 : ℝ) < 1 ∧
    distance (relTable 1 1 srcThree tgtOrigin 0 0) (origin 1) /
      radiiTable 1 1 (relTable 1 1 srcThree tgtOrigin) 1 0 < 1 :=
  ⟨by norm_num,
    normalized_distance_lt_one 1 1 srcThree tgtOrigin 1 0 0 (by norm_num)⟩

/-- C3: every returned coefficient is the sum over basis indices of the
pseudo-inverted moment matrix's constant-term row (basis index 0) times
the Vandermonde entry times the weight, and the weight factors out of the
whole sum. -/
theorem coefficient_extraction_formula {d : ℕ} (D nt nn : ℕ)
    (kernel : ℝ → ℝ) (eps : ℝ) (src : Fin nt → Fin nn → Point d)
    (tgt : Fin nt → Point d) (i : Fin nt) (j : Fin nn) :
    mlsCoeffs D nt nn kernel eps src tgt i j =
      ∑ k, symmetricPseudoInverseSVD (momentTable D nt nn
          (vandTable D nt nn (relTable nt nn src tgt))
          (phiTable nt nn kernel (relTable nt nn src tgt)
            (radiiTable nt nn (relTable nt nn src tgt) eps))) i
          (constIdx d D) k *
        vandTable D nt nn (relTable nt nn src tgt) i j k *
        phiTable nt nn kernel (relTable nt nn src tgt)
          (radiiTable nt nn (relTable nt nn src tgt) eps) i j ∧
    mlsCoeffs D nt nn kernel eps src tgt i j =
      (∑ k, symmetricPseudoInverseSVD (momentTable D nt nn
          (vandTable D nt nn (relTable nt nn src tgt))
          (phiTable nt nn kernel (relTable nt nn src tgt)
            (radiiTable nt nn (relTable nt nn src tgt) eps))) i
          (constIdx d D) k *
        vandTable D nt nn (relTable nt nn src tgt) i j k) *
      phiTable nt nn kernel (relTable nt nn src tgt)
        (radiiTable nt nn (relTable nt nn src tgt) eps) i j := by
  refine ⟨rfl, ?_⟩
  rw [Finset.sum_mul]
  exact rfl

/-- C9: when every neighbor of a target coincides with the target, the
radius floors at machine epsilon (its value is the inflated floor
`1.1 * eps`) and stays strictly positive, and every intermediate value of
that target — relative coordinates, weights, Vandermonde entries, moment
entries — is the well-defined real number computed here; in particular
the only division of the pipeline has a nonzero denominator. -/
theorem degenerate_collapse {d : ℕ} (D nt nn : ℕ) (kernel : ℝ → ℝ)
    (eps : ℝ) (src : Fin nt → Fin nn → Point d) (tgt : Fin nt → Point d)
    (i : Fin nt) (hdeg : ∀ j : Fin nn, src i j = tgt i) (heps : 0 < eps)
    (hk : kernel 0 = 1) :
    radiiTable nt nn (relTable nt nn src tgt) eps i = 1.1 * eps ∧
    0 < radiiTable nt nn (relTable nt nn src tgt) eps i ∧
    (∀ j, relTable nt nn src tgt i j = origin d) ∧
    (∀ j, phiTable nt nn kernel (relTable nt nn src tgt)
      (radiiTable nt nn (relTable nt nn src tgt) eps) i j = 1) ∧
    (∀ j α, vandTable D nt nn (relTable nt nn src tgt) i j α =
      if α = constIdx d D then 1 else 0) ∧
    (∀ α β, momentTable D nt nn (vandTable D nt nn (relTable nt nn src tgt))
      (phiTable nt nn kernel (relTable nt nn src tgt)
        (radiiTable nt nn (relTable nt nn src tgt) eps)) i α β =
      if α = constIdx d D ∧ β = constIdx d D then (nn : ℝ) else 0) := by
  have hrel : ∀ j, relTable nt nn src tgt i j = origin d := by
    intro j
    funext k
    show src i j k - tgt i k = 0
    rw [hdeg j, sub_self]
  have hdist : ∀ j, distance (relTable nt nn src tgt i j) (origin d) = 0 := by
    intro j
    rw [hrel j]
    exact distance_self_zero (origin d)
  have hloop : radiusLoop nn (relTable nt nn src tgt i) eps = eps :=
    le_antisymm
      (radiusLoop_le le_rfl (fun j => by rw [hdist j]; exact le_of_lt heps))
      (eps_le_radiusLoop nn _ eps)
  have hrad : radiiTable nt nn (relTable nt nn src tgt) eps i = 1.1 * eps := by
    show 1.1 * radiusLoop nn (relTable nt nn src tgt i) eps = 1.1 * eps
    rw [hloop]
  have hphi : ∀ j, phiTable nt nn kernel (relTable nt nn src tgt)
      (radiiTable nt nn (relTable nt nn src tgt) eps) i j = 1 := by
    intro j
    show kernel (distance (relTable nt nn src tgt i j) (origin d) /
      radiiTable nt nn (relTable nt nn src tgt) eps i) = 1
    rw [hdist j, zero_div, hk]
  have hvand : ∀ j α, vandTable D nt nn (relTable nt nn src tgt) i j α =
      if α = constIdx d D then 1 else 0 := by
    intro j α
    show mono α (relTable nt nn src tgt i j) = _
    rw [hrel j]
    exact mono_zeroPoint α
  refine ⟨hrad, by rw [hrad]; nlinarith, hrel, hphi, hvand, ?_⟩
  intro α β
  show momentLoop D nn (vandTable D nt nn (relTable nt nn src tgt) i)
    (phiTable nt nn kernel (relTable nt nn src tgt)
      (radiiTable nt nn (relTable nt nn src tgt) eps) i) α β = _
  rw [momentLoop_eq_sum]
  have hterm : ∀ l : Fin nn,
      vandTable D nt nn (relTable nt nn src tgt) i l α *
        vandTable D nt nn (relTable nt nn src tgt) i l β *
        phiTable nt nn kernel (relTable nt nn src tgt)
          (radiiTable nt nn (relTable nt nn src tgt) eps) i l =
      if α = constIdx d D ∧ β = constIdx d D then 1 else 0 := by
    intro l
    rw [hvand l α, hvand l β, hphi l, mul_one]
    by_cases hα : α = constIdx d D <;> by_cases hβ : β = constIdx d D <;>
      simp [hα, hβ]
  rw [Finset.sum_congr rfl (fun l _ => hterm l), Finset.sum_const,
    Finset.card_univ, Fintype.card_fin]
  by_cases h : α = constIdx d D ∧ β = constIdx d D
  · rw [if_pos h, if_pos h, nsmul_eq_mul, mul_one]
  · rw [if_neg h, if_neg h, smul_zero]

theorem degenerate_collapse_witness :
    ((∀ j : Fin 1, srcCoincide 0 j = tgtOrigin 0) ∧ (0 : ℝ) < 1 ∧
      wendland0 0 = 1) ∧
    (radiiTable 1 1 (relTable 1 1 srcCoincide tgtOrigin) 1 0 = 1.1 * 1 ∧
      0 < radiiTable 1 1 (relTable 1 1 srcCoincide tgtOrigin) 1 0 ∧
      (∀ j, relTable 1 1 srcCoincide tgtOrigin 0 j = origin 1) ∧
      (∀ j, phiTable 1 1 wendland0 (relTable 1 1 srcCoincide tgtOrigin)
        (radiiTable 1 1 (relTable 1 1 srcCoincide tgtOrigin) 1) 0 j = 1) ∧
      (∀ j α, vandTable 0 1 1 (relTable 1 1 srcCoincide tgtOrigin) 0 j α =
        if α = constIdx 1 0 then 1 else 0) ∧
      (∀ α β, momentTable 0 1 1
        (vandTable 0 1 1 (relTable 1 1 srcCoincide tgtOrigin))
        (phiTable 1 1 wendland0 (relTable 1 1 srcCoincide tgtOrigin)
          (radiiTable 1 1 (relTable 1 1 srcCoincide tgtOrigin) 1)) 0 α β =
        if α = constIdx 1 0 ∧ β = constIdx 1 0 then ((1 : ℕ) : ℝ) else 0)) :=
  ⟨⟨fun _ => rfl, by norm_num, by norm_num [wendland0]⟩,
    degenerate_collapse 0 1 1 wendland0 1 srcCoincide tgtOrigin 0
      (fun _ => rfl) (by norm_num) (by norm_num [wendland0])⟩

/-- C1: polynomial reproduction.  For a target whose weighted moment
matrix is invertible — the unisolvency that at least `poly_size`
affinely-independent neighbors guarantees for the configured degree — the
returned coefficients reproduce every polynomial of total degree at most
`D` exactly (the idealized-real counterpart of agreement within the scalar
type's tolerance): the polynomial is written as `shiftedPolynomial c`,
which ranges over all polynomials of total degree at most `D` as the
coefficient vector `c` ranges over all values.  In particular for degree 0
the coefficients of the target sum to 1. -/
theorem polynomial_reproduction {d : ℕ} (D nt nn : ℕ) (kernel : ℝ → ℝ)
    (eps : ℝ) (src : Fin nt → Fin nn → Point d) (tgt : Fin nt → Point d)
    (i : Fin nt)
    (hA : IsUnit (momentTable D nt nn
      (vandTable D nt nn (relTable nt nn src tgt))
      (phiTable nt nn kernel (relTable nt nn src tgt)
        (radiiTable nt nn (relTable nt nn src tgt) eps)) i).det) :
    (∀ c : PolyIdx d D → ℝ,
      ∑ j, mlsCoeffs D nt nn kernel eps src tgt i j *
        shiftedPolynomial c (tgt i) (src i j) =
      shiftedPolynomial c (tgt i) (tgt i)) ∧
    (D = 0 → ∑ j, mlsCoeffs D nt nn kernel eps src tgt i j = 1) := by
  set V := vandTable D nt nn (relTable nt nn src tgt) with hVdef
  set Φ := phiTable nt nn kernel (relTable nt nn src tgt)
    (radiiTable nt nn (relTable nt nn src tgt) eps) with hPdef
  set A := momentTable D nt nn V Φ i with hAdef
  have hAentry : ∀ k m, A k m = ∑ j, V i j k * V i j m * Φ i j :=
    fun k m => momentLoop_eq_sum D nn (V i) (Φ i) k m
  have hmain : ∀ c : PolyIdx d D → ℝ,
      ∑ j, mlsCoeffs D nt nn kernel eps src tgt i j *
        shiftedPolynomial c (tgt i) (src i j) =
      shiftedPolynomial c (tgt i) (tgt i) := by
    intro c
    have hcoeff : ∀ j, mlsCoeffs D nt nn kernel eps src tgt i j =
        ∑ k, A⁻¹ (constIdx d D) k * V i j k * Φ i j := fun j => rfl
    have hsp : ∀ j, shiftedPolynomial c (tgt i) (src i j) =
        ∑ m, c m * V i j m := fun j => rfl
    have step1 : ∀ j,
        (∑ k, A⁻¹ (constIdx d D) k * V i j k * Φ i j) *
          (∑ m, c m * V i j m) =
        ∑ k, ∑ m, A⁻¹ (constIdx d D) k * c m *
          (V i j k * V i j m * Φ i j) := by
      intro j
      rw [Finset.sum_mul]
      refine Finset.sum_congr rfl fun k _ => ?_
      rw [Finset.mul_sum]
      refine Finset.sum_congr rfl fun m _ => ?_
      ring
    have e1 : ∑ j, mlsCoeffs D nt nn kernel eps src tgt i j *
        shiftedPolynomial c (tgt i) (src i j) =
        ∑ j, ∑ k, ∑ m, A⁻¹ (constIdx d D) k * c m *
          (V i j k * V i j m * Φ i j) :=
      Finset.sum_congr rfl fun j _ => by rw [hcoeff j, hsp j, step1 j]
    have e2 : ∑ j, ∑ k, ∑ m, A⁻¹ (constIdx d D) k * c m *
        (V i j k * V i j m * Φ i j) =
        ∑ k, ∑ m, A⁻¹ (constIdx d D) k * c m *
          (∑ j, V i j k * V i j m * Φ i j) := by
      rw [Finset.sum_comm]
      refine Finset.sum_congr rfl fun k _ => ?_
      rw [Finset.sum_comm]
      refine Finset.sum_congr rfl fun m _ => ?_
      rw [Finset.mul_sum]
    have e3 : ∑ k, ∑ m, A⁻¹ (constIdx d D) k * c m *
        (∑ j, V i j k * V i j m * Φ i j) =
        ((A⁻¹ * A).mulVec c) (constIdx d D) := by
      have hmv : ((A⁻¹ * A).mulVec c) (constIdx d D) =
          ∑ m, (∑ k, A⁻¹ (constIdx d D) k * A k m) * c m := by
        simp [Matrix.mulVec, Matrix.dotProduct, Matrix.mul_apply]
      rw [hmv, Finset.sum_comm]
      refine Finset.sum_congr rfl fun m _ => ?_
      rw [Finset.sum_mul]
      refine Finset.sum_congr rfl fun k _ => ?_
      rw [hAentry k m]
      ring
    rw [e1, e2, e3, Matrix.nonsing_inv_mul A hA, Matrix.one_mulVec,
      shiftedPolynomial_at_center]
  refine ⟨hmain, fun hD => ?_⟩
  subst hD
  have h := hmain (fun _ => 1)
  rw [shiftedPolynomial_const_one (tgt i) (tgt i)] at h
  rw [← h]
  exact Finset.sum_congr rfl fun j _ => by
    rw [shiftedPolynomial_const_one (tgt i) (src i j), mul_one]

theorem polynomial_reproduction_witness :
    IsUnit (momentTable 0 1 1
      (vandTable 0 1 1 (relTable 1 1 srcCoincide tgtOrigin))
      (phiTable 1 1 wendland0 (relTable 1 1 srcCoincide tgtOrigin)
        (radiiTable 1 1 (relTable 1 1 srcCoincide tgtOrigin) 1)) 0).det ∧
    ((∀ c : PolyIdx 1 0 → ℝ,
        ∑ j, mlsCoeffs 0 1 1 wendland0 1 srcCoincide tgtOrigin 0 j *
          shiftedPolynomial c (tgtOrigin 0) (srcCoincide 0 j) =
        shiftedPolynomial c (tgtOrigin 0) (tgtOrigin 0)) ∧
      (0 = 0 → ∑ j, mlsCoeffs 0 1 1 wendland0 1 srcCoincide tgtOrigin 0 j
        = 1)) := by
  have hrel : relTable 1 1 srcCoincide tgtOrigin 0 0 = origin 1 := by
    funext k
    show (0 : ℝ) - 0 = 0
    ring
  have hdist : distance (relTable 1 1 srcCoincide tgtOrigin 0 0) (origin 1)
      = 0 := by
    rw [hrel]
    exact distance_self_zero (origin 1)
  have hphi : phiTable 1 1 wendland0 (relTable 1 1 srcCoincide tgtOrigin)
      (radiiTable 1 1 (relTable 1 1 srcCoincide tgtOrigin) 1) 0 0 = 1 := by
    show wendland0 (distance (relTable 1 1 srcCoincide tgtOrigin 0 0)
      (origin 1) / radiiTable 1 1 (relTable 1 1 srcCoincide tgtOrigin) 1 0)
      = 1
    rw [hdist, zero_div]
    norm_num [wendland0]
  have hA : IsUnit (momentTable 0 1 1
      (vandTable 0 1 1 (relTable 1 1 srcCoincide tgtOrigin))
      (phiTable 1 1 wendland0 (relTable 1 1 srcCoincide tgtOrigin)
        (radiiTable 1 1 (relTable 1 1 srcCoincide tgtOrigin) 1)) 0).det := by
    have hd : (momentTable 0 1 1
        (vandTable 0 1 1 (relTable 1 1 srcCoincide tgtOrigin))
        (phiTable 1 1 wendland0 (relTable 1 1 srcCoincide tgtOrigin)
          (radiiTable 1 1 (relTable 1 1 srcCoincide tgtOrigin) 1)) 0).det
        = 1 := by
      rw [Matrix.det_unique]
      show momentLoop 0 1
        (vandTable 0 1 1 (relTable 1 1 srcCoincide tgtOrigin) 0)
        (phiTable 1 1 wendland0 (relTable 1 1 srcCoincide tgtOrigin)
          (radiiTable 1 1 (relTable 1 1 srcCoincide tgtOrigin) 1) 0)
        default default = 1
      rw [momentLoop_eq_sum, Fin.sum_univ_one]
      have hv : vandTable 0 1 1 (relTable 1 1 srcCoincide tgtOrigin) 0 0
          (default : PolyIdx 1 0) = 1 :=
        mono_constIdx (relTable 1 1 srcCoincide tgtOrigin 0 0)
      rw [hv, hphi]
      norm_num
    rw [hd]
    exact isUnit_one
  exact ⟨hA, polynomial_reproduction 0 1 1 wendland0 1 srcCoincide tgtOrigin
    0 hA⟩

end MLS
